import Mathlib

/-!
# Verification of the span-rep training scripts

A shallow embedding of the training orchestration code in
`tasks/constclass/ablation_avgl.py`, `tasks/coref/train.py` and
`tasks/mention_detection/model.py`, together with proofs of the
behavioural properties claimed by the repository's specification.

Floating-point metric values (accuracies, F1 scores, learning rates)
are modelled as rationals; model weights, optimizer internals and RNG
states are opaque framework objects and are modelled as counters that
the loop threads through, faithfully to where the scripts read and
write them.
-/

namespace SpanRep

/-! ## `LearningRateController` (tasks/constclass/ablation_avgl.py, lines 15-31) -/

/-- State of `LearningRateController`.  `data` is the list of all values
ever added, `not_improved` the count of consecutive non-improving
evaluations, `best_performance` the best value seen (initially `-1e10`). -/
structure LearningRateController where
  data : List ℚ
  not_improved : ℕ
  weight_decay_range : ℕ
  terminate_range : ℕ
  best_performance : ℚ
  deriving Repr, DecidableEq

namespace LearningRateController

/-- `LearningRateController.__init__(weight_decay_range=5, terminate_range=20)`. -/
def init (weight_decay_range : ℕ := 5) (terminate_range : ℕ := 20) :
    LearningRateController :=
  { data := []
    not_improved := 0
    weight_decay_range := weight_decay_range
    terminate_range := terminate_range
    best_performance := -10000000000 }

/-- `LearningRateController.add_value(val)`: reset the counter (and record a
new best) when the history is empty or `val` beats `best_performance`,
otherwise increment it; append `val` to `data`; return the updated counter
together with the new state. -/
def add_value (c : LearningRateController) (val : ℚ) :
    LearningRateController × ℕ :=
  if c.data.length = 0 ∨ val > c.best_performance then
    ({ c with not_improved := 0
              best_performance := val
              data := c.data ++ [val] }, 0)
  else
    ({ c with not_improved := c.not_improved + 1
              data := c.data ++ [val] }, c.not_improved + 1)

/-- Run a whole sequence of `add_value` calls, keeping only the state. -/
def addValues (c : LearningRateController) (vals : List ℚ) :
    LearningRateController :=
  vals.foldl (fun s v => (s.add_value v).1) c

end LearningRateController

/-- Maximum of a nonempty list of rationals (head as the base case). -/
def listMax : List ℚ → ℚ
  | [] => 0
  | v :: vs => vs.foldl max v

/-- Spec-side notion of an improving call: call `i` of the sequence `vals`
improves exactly when the history `vals.take i` is empty or the `i`-th value
strictly exceeds every earlier value (i.e. the best value seen so far). -/
def improvingCall (vals : List ℚ) (i : ℕ) : Bool :=
  (vals.take i).all (fun x => x < vals.getD i 0)

/-- The value returned by the `i`-th `add_value` call of the sequence
`vals` on a freshly constructed controller. -/
def returnsAt (vals : List ℚ) (i : ℕ) : ℕ :=
  ((LearningRateController.addValues (.init) (vals.take i)).add_value
    (vals.getD i 0)).2

/-- Index of the last improving call at or before call `i`. -/
def lastImproving (vals : List ℚ) (i : ℕ) : ℕ :=
  Nat.findGreatest (fun j => improvingCall vals j = true) i

/-! ## The constclass training loop (tasks/constclass/ablation_avgl.py, `__main__`)

Framework-opaque objects are modelled as counters: `modelW` stands for the
model weights (one optimizer step = one new value), `weighing` for
`encoder.weighing_params`, `cudaRng` for the CUDA RNG state.  Quantities the
framework computes are oracles in the environment: `acc actual_step` is the
validation accuracy at that step, `timeUp actual_step` the wall-clock
time-limit test, `testAcc m` the test accuracy of model weights `m`. -/

/-- The checkpoint record written by `torch.save` at every validation
(lines 279-290). `optimizer` stands for `optimizer.state_dict()`, which
carries the current learning rate. -/
structure Ckpt where
  model : ℕ
  weighing_params : ℕ
  best_model : Option ℕ
  best_weighing_params : Option ℕ
  best_acc : ℚ
  optimizer : ℚ
  epoch : ℕ
  step : ℕ
  lr_controller : LearningRateController
  cuda_rng_state : ℕ
  deriving Repr, DecidableEq

/-- Run configuration: the parsed arguments together with the data sizes and
the framework oracles. `N` is `len(data_loader['train'])`. -/
structure Env where
  epochs : ℕ
  N : ℕ
  eval_step : ℕ
  learning_rate : ℚ
  acc : ℕ → ℚ
  timeUp : ℕ → Bool
  testAcc : ℕ → ℚ

/-- `args.start_epoch` / `args.epoch_step`; the latter is `-1` on a fresh
run, so it is an integer. -/
structure Resume where
  start_epoch : ℕ
  epoch_step : ℤ
  deriving Repr, DecidableEq

/-- Defaults set on lines 179-180: `args.start_epoch = 0`, `args.epoch_step = -1`. -/
def Resume.fresh : Resume := ⟨0, -1⟩

/-- The mutable state of the training loop.  `trained` records the
`(epoch, step)` pairs actually trained on (not skipped), `evals` the
`actual_step` values at which validation ran, `ckpts` the checkpoints
saved, in order. -/
structure LoopState where
  modelW : ℕ
  weighing : ℕ
  best_model : Option ℕ
  best_weighing : Option ℕ
  best_acc : ℚ
  lr : ℚ
  lrc : LearningRateController
  terminate : Bool
  exited : Bool
  cudaRng : ℕ
  trained : List (ℕ × ℕ)
  evals : List ℕ
  ckpts : List Ckpt
  deriving Repr, DecidableEq

/-- The best-metric update both scripts use: replace the best exactly when
the current metric strictly exceeds it (`if curr_acc > best_acc` /
`if f1 > max_f1`). -/
def updateBest (b v : ℚ) : ℚ := if v > b then v else b

/-- Fold the best-metric update over a run's validation metrics. -/
def bestAfter (b : ℚ) (vals : List ℚ) : ℚ := vals.foldl updateBest b

/-- The checkpoint dictionary built on lines 279-290 from the state at save
time (`epoch`/`step` are the loop indices at the saving validation). -/
def saveCkpt (st : LoopState) (e s : ℕ) : Ckpt :=
  { model := st.modelW
    weighing_params := st.weighing
    best_model := st.best_model
    best_weighing_params := st.best_weighing
    best_acc := st.best_acc
    optimizer := st.lr
    epoch := e
    step := s
    lr_controller := st.lrc
    cuda_rng_state := st.cudaRng }

/-- The validation block of the training loop (lines 244-294): validate,
update the best model on strict improvement, feed the accuracy to the
learning-rate controller, terminate / halve the learning rate according to
the returned count, save a checkpoint, and exit if the time limit is hit. -/
def evalBody (env : Env) (e s actual : ℕ) (st : LoopState) : LoopState :=
  let curr_acc := env.acc actual
  let st1 :=
    if curr_acc > st.best_acc then
      { st with best_acc := curr_acc
                best_model := some st.modelW
                best_weighing := some st.weighing
                evals := st.evals ++ [actual] }
    else { st with evals := st.evals ++ [actual] }
  let res := st1.lrc.add_value curr_acc
  let st2 := { st1 with lrc := res.1 }
  let st3 :=
    if res.2 = 0 then st2
    else if res.2 ≥ res.1.terminate_range then { st2 with terminate := true }
    else if res.2 % res.1.weight_decay_range = 0 then { st2 with lr := st2.lr / 2 }
    else st2
  let st4 := { st3 with ckpts := st3.ckpts ++ [saveCkpt st3 e s] }
  if env.timeUp actual then { st4 with exited := true } else st4

/-- The checkpoint-recovery skip (lines 218-221): ignore batches with
`epoch < start_epoch` or `epoch == start_epoch and step <= epoch_step`. -/
def skipBatch (r : Resume) (e s : ℕ) : Bool :=
  decide (e < r.start_epoch) ||
    (decide (e = r.start_epoch) && decide ((s : ℤ) ≤ r.epoch_step))

/-- One iteration of the inner `for step, ... in enumerate(data_loader['train'])`
loop.  A `break` (after termination) and the process exit are modelled by
leaving the state unchanged for the rest of the fold; training a batch
advances the model, the encoder weighing parameters and the CUDA RNG. -/
def stepBody (env : Env) (r : Resume) (e s : ℕ) (st : LoopState) : LoopState :=
  if st.terminate || st.exited then st
  else if skipBatch r e s then st
  else
    let st1 := { st with modelW := st.modelW + 1
                         weighing := st.weighing + 1
                         cudaRng := st.cudaRng + 1
                         trained := st.trained ++ [(e, s)] }
    let actual_step := env.N * e + s + 1
    if actual_step % env.eval_step = 0 then evalBody env e s actual_step st1
    else st1

/-- All `(epoch, step)` pairs of the nested `for` loops, in order. -/
def allBatches (env : Env) : List (ℕ × ℕ) :=
  (List.range env.epochs).flatMap fun e => (List.range env.N).map fun s => (e, s)

/-- The nested training loops (lines 208-294). -/
def runLoop (env : Env) (r : Resume) (st : LoopState) : LoopState :=
  (allBatches env).foldl (fun st p => stepBody env r p.1 p.2 st) st

/-- The state before training on a fresh run (lines 172-180): zero best
accuracy, no best model, a fresh controller, the command-line learning
rate. -/
def freshState (env : Env) : LoopState :=
  { modelW := 0
    weighing := 0
    best_model := none
    best_weighing := none
    best_acc := 0
    lr := env.learning_rate
    lrc := .init
    terminate := false
    exited := false
    cudaRng := 0
    trained := []
    evals := []
    ckpts := [] }

/-- Loading a checkpoint (lines 186-196): every saved field is copied back
into the live state. -/
def loadCkpt (ck : Ckpt) : LoopState :=
  { modelW := ck.model
    weighing := ck.weighing_params
    best_model := ck.best_model
    best_weighing := ck.best_weighing_params
    best_acc := ck.best_acc
    lr := ck.optimizer
    lrc := ck.lr_controller
    terminate := false
    exited := false
    cudaRng := ck.cuda_rng_state
    trained := []
    evals := []
    ckpts := [] }

/-- Resume coordinates from a checkpoint (lines 194-195):
`args.start_epoch = checkpoint['epoch']`, `args.epoch_step = checkpoint['step']`. -/
def resumeOf (ck : Ckpt) : Resume := ⟨ck.epoch, (ck.step : ℤ)⟩

/-- Outcome of a run of the script: early test-and-exit on a resumed,
already-terminated controller (lines 197-206); time-limit exit (lines
291-294); normal completion with the final test accuracy (lines 296-303);
or the `assert best_model is not None` failing. -/
inductive RunResult where
  | testedEarly (testAcc : ℚ) (st : LoopState)
  | timeExit (st : LoopState)
  | finished (testAcc : ℚ) (st : LoopState)
  | assertErr (st : LoopState)
  deriving Repr, DecidableEq

/-- The code after the training loops (lines 296-303): nothing runs after a
time-limit exit; otherwise assert a best model exists and report its test
accuracy. -/
def finishRun (env : Env) (st : LoopState) : RunResult :=
  if st.exited then .timeExit st
  else
    match st.best_model with
    | none => .assertErr st
    | some m => .finished (env.testAcc m) st

/-- A run that found no checkpoint file: fresh training followed by the
final test. -/
def mainFresh (env : Env) : RunResult :=
  finishRun env (runLoop env .fresh (freshState env))

/-- The whole `__main__` flow from line 178 on, with the checkpoint file
modelled as `Option Ckpt` (`none` = `os.path.exists(ckpt_path)` is false).
A loaded controller that already stopped improving makes the script test
the best model and exit before any training (lines 197-206). -/
def runMain (env : Env) (ck? : Option Ckpt) : RunResult :=
  match ck? with
  | none => mainFresh env
  | some ck =>
      if ck.lr_controller.not_improved ≥ ck.lr_controller.terminate_range then
        match ck.best_model with
        | none => .assertErr (loadCkpt ck)
        | some m => .testedEarly (env.testAcc m) (loadCkpt ck)
      else
        finishRun env (runLoop env (resumeOf ck) (loadCkpt ck))

/-- The trained `(epoch, step)` pairs of a run's outcome. -/
def RunResult.trainedSteps : RunResult → List (ℕ × ℕ)
  | .testedEarly _ st => st.trained
  | .timeExit st => st.trained
  | .finished _ st => st.trained
  | .assertErr st => st.trained

/-- Whether a run finished normally, reporting a final test metric. -/
def RunResult.isFinished : RunResult → Bool
  | .finished _ _ => true
  | _ => false

/-- The training fold over an arbitrary list of `(epoch, step)` pairs;
`runLoop env r st = runList env r (allBatches env) st`. -/
def runList (env : Env) (r : Resume) (l : List (ℕ × ℕ)) (st : LoopState) :
    LoopState :=
  l.foldl (fun st p => stepBody env r p.1 p.2 st) st

/-- Lexicographic "at or before" on `(epoch, step)` pairs: the batches the
spec says a resumed run skips are those up to and including the
checkpointed position. -/
def lexLe (p q : ℕ × ℕ) : Bool :=
  decide (p.1 < q.1) || (decide (p.1 = q.1) && decide (p.2 ≤ q.2))

/-- The keys of the checkpoint dictionary saved by the constclass script
(`torch.save({...})`, lines 279-290), in source order. -/
def constclassCkptKeys : List String :=
  ["model", "weighing_params", "best_model", "best_weighing_params",
   "best_acc", "optimizer", "epoch", "step", "lr_controller",
   "cuda_rng_state"]

/-- The keys of the checkpoint dictionary saved by `save_model` in
tasks/coref/train.py (lines 42-52), in source order. -/
def corefCkptKeys : List String :=
  ["steps_done", "max_f1", "model_state_dict", "optimizer_state_dict",
   "scheduler_state_dict", "rng_state"]

/-! ## The coref training loop (tasks/coref/train.py) -/

/-- The checkpoint record written by `save_model` (lines 42-52). -/
structure CorefCkpt where
  steps_done : ℕ
  max_f1 : ℚ
  model_state_dict : ℕ
  optimizer_state_dict : ℕ
  scheduler_state_dict : ℕ
  rng_state : ℕ
  deriving Repr, DecidableEq

/-- `save_model(model, optimizer, scheduler, steps_done, max_f1, location)`:
bundle the live states into a checkpoint record. -/
def save_model (modelW optW schedW rngW : ℕ) (steps_done : ℕ) (max_f1 : ℚ) :
    CorefCkpt :=
  { steps_done := steps_done
    max_f1 := max_f1
    model_state_dict := modelW
    optimizer_state_dict := optW
    scheduler_state_dict := schedW
    rng_state := rngW }

/-- Run configuration of `train`: `num_steps`, `len(train_iter)`,
`EVAL_STEPS = 1000`, and the framework oracle giving the validation F1 at a
given `steps_done`. -/
structure CorefEnv where
  num_steps : ℕ
  nBatches : ℕ
  EVAL_STEPS : ℕ
  f1 : ℕ → ℚ

/-- Live state of `train`: counters standing for the framework states
(model, optimizer, scheduler, CPU RNG), `steps_done`, the best F1, the
validation points, and the checkpoints written to the best-model and
regular locations. -/
structure CorefState where
  steps_done : ℕ
  max_f1 : ℚ
  modelW : ℕ
  optW : ℕ
  schedW : ℕ
  rngW : ℕ
  evals : List ℕ
  bestCkpts : List CorefCkpt
  regCkpts : List CorefCkpt
  deriving Repr, DecidableEq

/-- One iteration of `for idx, batch_data in enumerate(train_iter)`
(lines 63-94): an optimizer step, then — when `steps_done` hits a multiple
of `EVAL_STEPS` — evaluate, step the scheduler on the F1, save a best
checkpoint on strict improvement, and always save a regular checkpoint
carrying the current F1. -/
def corefStep (env : CorefEnv) (st : CorefState) : CorefState :=
  let st1 := { st with modelW := st.modelW + 1
                       optW := st.optW + 1
                       rngW := st.rngW + 1
                       steps_done := st.steps_done + 1 }
  if st1.steps_done % env.EVAL_STEPS = 0 then
    let f1 := env.f1 st1.steps_done
    let st2 := { st1 with schedW := st1.schedW + 1
                          evals := st1.evals ++ [st1.steps_done] }
    let st3 :=
      if f1 > st2.max_f1 then
        { st2 with max_f1 := f1
                   bestCkpts := st2.bestCkpts ++
                     [save_model st2.modelW st2.optW st2.schedW st2.rngW
                       st2.steps_done f1] }
      else st2
    { st3 with regCkpts := st3.regCkpts ++
        [save_model st3.modelW st3.optW st3.schedW st3.rngW
          st3.steps_done f1] }
  else st1

/-- One epoch: the whole `for` loop over `train_iter`. -/
def corefEpoch (env : CorefEnv) (st : CorefState) : CorefState :=
  (List.range env.nBatches).foldl (fun st _ => corefStep env st) st

/-- The `while (steps_done < num_steps)` loop of `train` (lines 61-96).
It repeats whole epochs; it terminates only because every epoch advances
`steps_done` by `len(train_iter)`, which must be positive. -/
def corefTrain (env : CorefEnv) (hb : 0 < env.nBatches) (st : CorefState) :
    CorefState :=
  if h : st.steps_done < env.num_steps then corefTrain env hb (corefEpoch env st)
  else st
  termination_by env.num_steps - st.steps_done
  decreasing_by
    have key : ∀ (l : List ℕ) (s : CorefState),
        (l.foldl (fun s _ => corefStep env s) s).steps_done =
          s.steps_done + l.length := by
      intro l
      induction l with
      | nil => intro s; simp
      | cons a l ih =>
          intro s
          have h1 : (corefStep env s).steps_done = s.steps_done + 1 := by
            simp only [corefStep]
            split_ifs <;> rfl
          simp only [List.foldl_cons, ih, h1, List.length_cons]
          omega
    have h2 : (corefEpoch env st).steps_done = st.steps_done + env.nBatches := by
      simpa using key (List.range env.nBatches) st
    simp only [h2]
    omega

/-- The default initial training state of the coref script's `main`
(lines 193-194: `steps_done = 0`, `max_f1 = 0`, freshly initialized
framework objects). -/
def corefFreshState : CorefState :=
  { steps_done := 0, max_f1 := 0, modelW := 0, optW := 0, schedW := 0
    rngW := 0, evals := [], bestCkpts := [], regCkpts := [] }

/-- The checkpoint-resume block of `main` (lines 198-210), with the
best-model checkpoint file modelled as `Option CorefCkpt`
(`none` = `path.exists(location)` is false): when the file is absent the
defaults stand untouched — no load is attempted and nothing is raised;
when it is present, every saved field is restored. -/
def corefResumeState (file : Option CorefCkpt) : CorefState :=
  match file with
  | none => corefFreshState
  | some ck =>
      { steps_done := ck.steps_done
        max_f1 := ck.max_f1
        modelW := ck.model_state_dict
        optW := ck.optimizer_state_dict
        schedW := ck.scheduler_state_dict
        rngW := ck.rng_state
        evals := [], bestCkpts := [], regCkpts := [] }

/-- The best-model checkpoint file on disk after `train` ran: the last
best checkpoint `train` wrote, or the preexisting file if it wrote none. -/
def corefBestFile (file : Option CorefCkpt) (st : CorefState) :
    Option CorefCkpt :=
  match st.bestCkpts.getLast? with
  | some ck => some ck
  | none => file

/-- `final_eval(hp, best_model_dir, test_iter)` (lines 144-154): when the
best-model checkpoint file is absent the function silently does nothing
(returns no metrics, raises nothing); when it is present, it loads the
model from the checkpoint and reports the saved `max_f1` together with the
test F1 of that model (`testF1` is the framework's `eval` on the test set,
as a function of the loaded model weights). -/
def final_eval (testF1 : ℕ → ℚ) (file : Option CorefCkpt) :
    Option (ℚ × ℚ) :=
  match file with
  | none => none
  | some ck => some (ck.max_f1, testF1 ck.model_state_dict)

/-- Outcome of the coref `main`: the `-eval` path runs `final_eval` only;
the training path runs `train` and then `final_eval`.  Either way the
reported metrics are `none` exactly when the best checkpoint file was
absent. -/
inductive CorefRunResult where
  | evalOnly (reported : Option (ℚ × ℚ))
  | trained (st : CorefState) (reported : Option (ℚ × ℚ))
  deriving Repr, DecidableEq

/-- The metrics the run reported through `final_eval`, if any. -/
def CorefRunResult.reported : CorefRunResult → Option (ℚ × ℚ)
  | .evalOnly r => r
  | .trained _ r => r

/-- The coref `main` (lines 157-216) from the resume point on: with
`-eval`, just `final_eval` on the best checkpoint file; otherwise restore
state from the file when it exists, run `train`, and end with `final_eval`
on the best checkpoint file left after training. -/
def corefMain (env : CorefEnv) (hb : 0 < env.nBatches) (testF1 : ℕ → ℚ)
    (evalFlag : Bool) (file : Option CorefCkpt) : CorefRunResult :=
  if evalFlag then .evalOnly (final_eval testF1 file)
  else
    let stT := corefTrain env hb (corefResumeState file)
    .trained stT (final_eval testF1 (corefBestFile file stT))

/-! ## Script phase order and `get_model_name` -/

/-- The top-level phases a training script runs through. -/
inductive Phase where
  | parseArgs | loadData | buildModel | buildOptimizer | trainLoop | finalEval
  deriving Repr, DecidableEq

/-- Phase order of the constclass script's `__main__` (lines 65-303):
arguments (67-90), datasets and loaders (124-155), the `SpanClassifier`
model (157-165), the optimizer (167-170), the training loop (208-294),
the final test (296-303). -/
def constclassPhases : List Phase :=
  [.parseArgs, .loadData, .buildModel, .buildOptimizer, .trainLoop, .finalEval]

/-- Phase order of the coref script's `main` (lines 157-216): arguments
(158), the `CorefModel` (173) — built BEFORE the data (177) — then, unless
`-eval` was passed, the optimizers and scheduler (185-192), `train`
(212-214) and `final_eval` (216); with `-eval`, `final_eval` directly. -/
def corefMainPhases (evalFlag : Bool) : List Phase :=
  if evalFlag then [.parseArgs, .buildModel, .loadData, .finalEval]
  else [.parseArgs, .buildModel, .loadData, .buildOptimizer, .trainLoop,
    .finalEval]

/-! ## `validate` (tasks/constclass/ablation_avgl.py, lines 45-62) -/

/-- The pair of global torch RNG states `validate` saves and restores. -/
structure RngPair where
  cpu : ℕ
  cuda : ℕ
  deriving Repr, DecidableEq

/-- One development/test batch as `validate` consumes it: the model's
sigmoid outputs for the batch's spans and the gold labels.  The number of
spans (`spans.shape[0]`) is the length of `preds`. -/
structure VBatch where
  preds : List ℚ
  labels : List ℤ
  deriving Repr, DecidableEq

/-- Per-batch correct-prediction count:
`((preds > 0.5).long() == labels).long().sum().item()`. -/
def batchCorrect (b : VBatch) : ℕ :=
  ((b.preds.zip b.labels).filter fun pl =>
    (if pl.1 > 1/2 then (1 : ℤ) else 0) = pl.2).length

/-- `validate(loader, model)`: save both global RNG states, run the
evaluation loop (which may advance the global RNG, modelled by `loop`),
accumulate numerator/denominator, restore both RNG states, and return the
accuracy. -/
def validate (loop : RngPair → RngPair) (batches : List VBatch)
    (rng : RngPair) : RngPair × ℚ :=
  let rng_state := rng.cpu
  let cuda_rng_state := rng.cuda
  let _rngAfterLoop := loop rng
  let numerator := (batches.map batchCorrect).sum
  let denominator := (batches.map fun b => b.preds.length).sum
  ({ cpu := rng_state, cuda := cuda_rng_state },
    (numerator : ℚ) / (denominator : ℚ))

/-! ## `get_model_name` (tasks/coref/train.py, lines 126-141) -/

/-- The parsed command-line namespace of the coref script (lines 14-39). -/
structure CorefHp where
  data_dir : String
  model_dir : String
  batch_size : ℤ
  eval_batch_size : ℤ
  n_epochs : ℤ
  lr : ℚ
  lr_tune : ℚ
  span_dim : ℤ
  model : String
  model_size : String
  fine_tune : Bool
  pool_method : String
  train_frac : ℚ
  seed : ℤ
  evalFlag : Bool
  deriving Repr, DecidableEq

/-- Python's `str` of a bool. -/
def pyBool : Bool → String
  | true => "True"
  | false => "False"

/-- `str(opt_dict.items())` for the `OrderedDict` built from the eleven
`imp_opts` in their source order (lines 129-138). -/
def strRepr (hp : CorefHp) : String :=
  "odict_items([('model', '" ++ hp.model ++ "'), ('model_size', '" ++
    hp.model_size ++ "'), ('batch_size', " ++ toString hp.batch_size ++
    "), ('n_epochs', " ++ toString hp.n_epochs ++ "), ('fine_tune', " ++
    pyBool hp.fine_tune ++ "), ('span_dim', " ++ toString hp.span_dim ++
    "), ('pool_method', '" ++ hp.pool_method ++ "'), ('train_frac', " ++
    toString hp.train_frac ++ "), ('seed', " ++ toString hp.seed ++
    "), ('lr', " ++ toString hp.lr ++ "), ('lr_tune', " ++
    toString hp.lr_tune ++ ")])"

/-- `get_model_name(hp)`: `"coref_"` plus the MD5 hex digest of the string
representation of the eleven important options.  `hashlib.md5(...).hexdigest()`
is framework code, passed in as a function. -/
def get_model_name (md5hex : String → String) (hp : CorefHp) : String :=
  "coref_" ++ md5hex (strRepr hp)

/-! ## Concrete fixtures used by the witness theorems -/

/-- A run configuration with no validation points (4 actual steps, interval
5): used to observe the batch-skip behaviour in isolation. -/
def envNoEval : Env :=
  { epochs := 2, N := 2, eval_step := 5, learning_rate := 4
    acc := fun _ => 0, timeUp := fun _ => false
    testAcc := fun m => (m : ℚ) }

/-- A tiny run configuration with a validation at every step. -/
def envEvery : Env :=
  { epochs := 1, N := 1, eval_step := 1, learning_rate := 4
    acc := fun _ => 1, timeUp := fun _ => false
    testAcc := fun m => (m : ℚ) }

/-- A checkpoint whose controller has already stopped improving. -/
def ckptStopped : Ckpt :=
  { model := 5, weighing_params := 5, best_model := some 3
    best_weighing_params := some 3, best_acc := 2, optimizer := 4
    epoch := 1, step := 0
    lr_controller := ⟨[2, 1], 20, 5, 20, 2⟩
    cuda_rng_state := 7 }

/-- A checkpoint on a still-improving controller, saved at `(0, 0)`. -/
def ckptLive : Ckpt :=
  { model := 1, weighing_params := 1, best_model := some 1
    best_weighing_params := some 1, best_acc := 2, optimizer := 4
    epoch := 0, step := 0
    lr_controller := ⟨[2], 0, 5, 20, 2⟩
    cuda_rng_state := 1 }

/-- A loop state one non-improvement away from termination. -/
def stNearStop : LoopState :=
  { modelW := 1, weighing := 1, best_model := some 0, best_weighing := some 0
    best_acc := 2, lr := 4, lrc := ⟨[2], 19, 5, 20, 2⟩
    terminate := false, exited := false, cudaRng := 0
    trained := [], evals := [], ckpts := [] }

/-- A run configuration whose wall-clock time limit is already exceeded at
the first validation. -/
def envTimeUp : Env :=
  { epochs := 1, N := 1, eval_step := 1, learning_rate := 4
    acc := fun _ => 1, timeUp := fun _ => true
    testAcc := fun m => (m : ℚ) }

/-- A coref run whose validation F1 never improves on the initial 0, so no
best checkpoint is ever written. -/
def cenvZero : CorefEnv :=
  { num_steps := 1, nBatches := 1, EVAL_STEPS := 1, f1 := fun _ => 0 }

/-- A small coref run: two steps wanted, one batch per epoch, evaluation
at every step. -/
def cenvSmall : CorefEnv :=
  { num_steps := 2, nBatches := 1, EVAL_STEPS := 1, f1 := fun _ => 1 }

/-- The coref training state at the start of a fresh run. -/
def cstInit : CorefState :=
  { steps_done := 0, max_f1 := 0, modelW := 0, optW := 0, schedW := 0
    rngW := 0, evals := [], bestCkpts := [], regCkpts := [] }

/-- A loop state one non-improvement away from a learning-rate decay. -/
def stNearDecay : LoopState :=
  { modelW := 1, weighing := 1, best_model := some 0, best_weighing := some 0
    best_acc := 2, lr := 4, lrc := ⟨[2], 4, 5, 20, 2⟩
    terminate := false, exited := false, cudaRng := 0
    trained := [], evals := [], ckpts := [] }

namespace LearningRateController

theorem add_value_data (c : LearningRateController) (v : ℚ) :
    ((c.add_value v).1).data = c.data ++ [v] := by
  unfold add_value; split <;> rfl

theorem add_value_ranges (c : LearningRateController) (v : ℚ) :
    ((c.add_value v).1).weight_decay_range = c.weight_decay_range ∧
    ((c.add_value v).1).terminate_range = c.terminate_range := by
  unfold add_value; split <;> exact ⟨rfl, rfl⟩

theorem add_value_snd_eq (c : LearningRateController) (v : ℚ) :
    (c.add_value v).2 = ((c.add_value v).1).not_improved := by
  unfold add_value; split <;> rfl

theorem addValues_snoc (c : LearningRateController) (vs : List ℚ) (v : ℚ) :
    addValues c (vs ++ [v]) = ((addValues c vs).add_value v).1 := by
  unfold addValues; rw [List.foldl_append]; rfl

theorem addValues_data (c : LearningRateController) (vs : List ℚ) :
    (addValues c vs).data = c.data ++ vs := by
  induction vs generalizing c with
  | nil => simp [addValues]
  | cons v vs ih =>
      show (addValues ((c.add_value v).1) vs).data = _
      rw [ih, add_value_data]
      simp

end LearningRateController

theorem listMax_snoc (l : List ℚ) (v : ℚ) (h : l ≠ []) :
    listMax (l ++ [v]) = max (listMax l) v := by
  cases l with
  | nil => exact absurd rfl h
  | cons x xs => simp [listMax, List.foldl_append]

theorem foldl_max_le (ys : List ℚ) :
    ∀ y : ℚ, y ≤ ys.foldl max y ∧ ∀ x ∈ ys, x ≤ ys.foldl max y := by
  induction ys with
  | nil => intro y; exact ⟨le_refl y, by intro x hx; cases hx⟩
  | cons z zs ih =>
      intro y
      simp only [List.foldl_cons]
      refine ⟨le_trans (le_max_left y z) (ih (max y z)).1, ?_⟩
      intro x hx
      rcases List.mem_cons.mp hx with h | h
      · rw [h]; exact le_trans (le_max_right y z) (ih (max y z)).1
      · exact (ih (max y z)).2 x h

theorem foldl_max_mem (ys : List ℚ) :
    ∀ y : ℚ, ys.foldl max y ∈ y :: ys := by
  induction ys with
  | nil => intro y; exact List.mem_singleton.mpr rfl
  | cons z zs ih =>
      intro y
      simp only [List.foldl_cons]
      rcases List.mem_cons.mp (ih (max y z)) with h | h
      · rcases max_choice y z with hc | hc
        · exact List.mem_cons.mpr (Or.inl (h.trans hc))
        · exact List.mem_cons.mpr (Or.inr (List.mem_cons.mpr (Or.inl (h.trans hc))))
      · exact List.mem_cons.mpr (Or.inr (List.mem_cons.mpr (Or.inr h)))

theorem le_listMax (l : List ℚ) (x : ℚ) (hx : x ∈ l) : x ≤ listMax l := by
  cases l with
  | nil => cases hx
  | cons y ys =>
      rcases List.mem_cons.mp hx with h | h
      · exact h ▸ (foldl_max_le ys y).1
      · exact (foldl_max_le ys y).2 x h

theorem listMax_mem (l : List ℚ) (h : l ≠ []) : listMax l ∈ l := by
  cases l with
  | nil => exact absurd rfl h
  | cons y ys => exact foldl_max_mem ys y

theorem listMax_lt_iff (l : List ℚ) (v : ℚ) (h : l ≠ []) :
    listMax l < v ↔ ∀ x ∈ l, x < v := by
  constructor
  · intro hlt x hx
    exact lt_of_le_of_lt (le_listMax l x hx) hlt
  · intro hall
    exact hall _ (listMax_mem l h)

theorem add_value_best (c : LearningRateController) (v : ℚ)
    (hne : c.data ≠ [] → c.best_performance = listMax c.data) :
    ((c.add_value v).1).best_performance = listMax (c.data ++ [v]) := by
  by_cases hd : c.data = []
  · rw [LearningRateController.add_value, if_pos (Or.inl (by simp [hd]))]
    simp [hd, listMax]
  · have hbest := hne hd
    by_cases hv : v > c.best_performance
    · rw [LearningRateController.add_value, if_pos (Or.inr hv)]
      rw [listMax_snoc c.data v hd, ← hbest]
      exact (max_eq_right (le_of_lt hv)).symm
    · rw [LearningRateController.add_value,
        if_neg (by push_neg; exact ⟨by simpa [List.length_eq_zero] using hd, not_lt.mp hv⟩)]
      rw [listMax_snoc c.data v hd, ← hbest]
      exact (max_eq_left (not_lt.mp hv)).symm

theorem addValues_init_data (vals : List ℚ) :
    (LearningRateController.addValues .init vals).data = vals := by
  simpa [LearningRateController.init] using
    LearningRateController.addValues_data .init vals

theorem addValues_init_best (vals : List ℚ) :
    vals ≠ [] →
    (LearningRateController.addValues .init vals).best_performance = listMax vals := by
  induction vals using List.reverseRecOn with
  | nil => intro h; exact absurd rfl h
  | append_singleton vs v ih =>
      intro _
      rw [LearningRateController.addValues_snoc]
      have hdata := addValues_init_data vs
      have hkey := add_value_best (LearningRateController.addValues .init vs) v ?_
      · rw [hkey, hdata]
      · intro hne
        rw [hdata] at hne
        rw [hdata]
        exact ih hne

/-- The branch condition of `add_value` at call `i` agrees with the spec-side
notion of an improving call. -/
theorem add_value_cond_iff (vals : List ℚ) (i : ℕ) :
    ((LearningRateController.addValues .init (vals.take i)).data.length = 0 ∨
      vals.getD i 0 >
        (LearningRateController.addValues .init (vals.take i)).best_performance) ↔
    improvingCall vals i = true := by
  rw [addValues_init_data]
  by_cases hd : vals.take i = []
  · simp [hd, improvingCall]
  · rw [addValues_init_best _ hd]
    constructor
    · intro hcond
      rcases hcond with h0 | hgt
      · exact absurd (List.length_eq_zero.mp h0) hd
      · exact List.all_eq_true.mpr fun x hx =>
          decide_eq_true ((listMax_lt_iff _ _ hd).mp hgt x hx)
    · intro hall
      exact Or.inr ((listMax_lt_iff _ _ hd).mpr fun x hx =>
        of_decide_eq_true (List.all_eq_true.mp hall x hx))

theorem returnsAt_of_improving (vals : List ℚ) (i : ℕ)
    (h : improvingCall vals i = true) : returnsAt vals i = 0 := by
  rw [returnsAt, LearningRateController.add_value,
    if_pos ((add_value_cond_iff vals i).mpr h)]

theorem returnsAt_of_not_improving (vals : List ℚ) (i : ℕ) (hi : i < vals.length)
    (h : improvingCall vals i = false) :
    0 < i ∧ returnsAt vals i = returnsAt vals (i - 1) + 1 := by
  have hipos : 0 < i := by
    rcases Nat.eq_zero_or_pos i with h0 | h0
    · subst h0
      simp [improvingCall] at h
    · exact h0
  refine ⟨hipos, ?_⟩
  obtain ⟨j, rfl⟩ : ∃ j, i = j + 1 := ⟨i - 1, (Nat.succ_pred_eq_of_pos hipos).symm⟩
  have hj : j < vals.length := Nat.lt_of_succ_lt hi
  have htake : vals.take (j + 1) = vals.take j ++ [vals.getD j 0] := by
    rw [List.take_succ, List.getD_eq_getElem?_getD]
    simp [List.getElem?_eq_getElem hj]
  have hcond := (add_value_cond_iff vals (j + 1)).not.mpr (by simp [h])
  rw [returnsAt, LearningRateController.add_value, if_neg hcond]
  simp only [Nat.add_sub_cancel]
  rw [htake, LearningRateController.addValues_snoc,
    ← LearningRateController.add_value_snd_eq]
  rfl

theorem returnsAt_eq_sub (vals : List ℚ) (i : ℕ) (hi : i < vals.length) :
    returnsAt vals i = i - lastImproving vals i := by
  induction i with
  | zero =>
      have himp : improvingCall vals 0 = true := by simp [improvingCall]
      simp [returnsAt_of_improving vals 0 himp]
  | succ j ih =>
      by_cases h : improvingCall vals (j + 1) = true
      · rw [returnsAt_of_improving vals _ h]
        have hfg : lastImproving vals (j + 1) = j + 1 :=
          le_antisymm (Nat.findGreatest_le _)
            (Nat.le_findGreatest (le_refl _) h)
        rw [hfg]
        omega
      · have hne : improvingCall vals (j + 1) = false := by
          simpa using h
        obtain ⟨-, hrec⟩ := returnsAt_of_not_improving vals (j + 1) hi hne
        simp only [Nat.add_sub_cancel] at hrec
        rw [hrec, ih (Nat.lt_of_succ_lt hi)]
        have hfg : lastImproving vals (j + 1) = lastImproving vals j := by
          rw [lastImproving, Nat.findGreatest_succ, if_neg (by simp [hne])]
          rfl
        have hle : lastImproving vals j ≤ j := Nat.findGreatest_le _
        rw [hfg]
        omega

/-- C1: `LearningRateController.add_value` counts non-improving evaluations.
A call improves exactly when the history is empty or its value strictly
exceeds every value seen before (`improvingCall`); an improving call makes
`add_value` return 0, a non-improving call makes it return one more than the
previous call returned, and in general call `i` returns the number of calls
since the last improving call at or before `i`. -/
theorem addValue_counts_nonImproving (vals : List ℚ) (i : ℕ)
    (hi : i < vals.length) :
    (improvingCall vals i = true → returnsAt vals i = 0) ∧
    (improvingCall vals i = false →
      0 < i ∧ returnsAt vals i = returnsAt vals (i - 1) + 1) ∧
    returnsAt vals i = i - lastImproving vals i := by
  refine ⟨returnsAt_of_improving vals i, ?_, returnsAt_eq_sub vals i hi⟩
  intro h
  exact returnsAt_of_not_improving vals i hi h

theorem addValue_counts_nonImproving_witness :
    2 < [(1:ℚ), 3, 2, 5].length ∧
    (improvingCall [(1:ℚ), 3, 2, 5] 2 = false →
      0 < 2 ∧ returnsAt [(1:ℚ), 3, 2, 5] 2 = returnsAt [(1:ℚ), 3, 2, 5] 1 + 1) ∧
    returnsAt [(1:ℚ), 3, 2, 5] 2 = 2 - lastImproving [(1:ℚ), 3, 2, 5] 2 :=
  ⟨by decide,
   (addValue_counts_nonImproving [(1:ℚ), 3, 2, 5] 2 (by decide)).2.1,
   (addValue_counts_nonImproving [(1:ℚ), 3, 2, 5] 2 (by decide)).2.2⟩

/-- C2: after a nonempty sequence of `add_value` calls on a fresh
controller, `best_performance` is the maximum of all values added
(it is one of them and bounds all of them) and `data` is exactly the
list of values in call order. -/
theorem lrController_tracks_best (vals : List ℚ) (h : vals ≠ []) :
    (LearningRateController.addValues .init vals).data = vals ∧
    (LearningRateController.addValues .init vals).best_performance ∈ vals ∧
    ∀ v ∈ vals, v ≤ (LearningRateController.addValues .init vals).best_performance := by
  have hbest := addValues_init_best vals h
  refine ⟨addValues_init_data vals, ?_, ?_⟩
  · rw [hbest]; exact listMax_mem vals h
  · intro v hv; rw [hbest]; exact le_listMax vals v hv

theorem lrController_tracks_best_witness :
    ([(1:ℚ), 3, 2] ≠ []) ∧
    ((LearningRateController.addValues .init [(1:ℚ), 3, 2]).data = [(1:ℚ), 3, 2] ∧
     (LearningRateController.addValues .init [(1:ℚ), 3, 2]).best_performance ∈
       [(1:ℚ), 3, 2] ∧
     ∀ v ∈ [(1:ℚ), 3, 2],
       v ≤ (LearningRateController.addValues .init [(1:ℚ), 3, 2]).best_performance) :=
  ⟨by decide, lrController_tracks_best [(1:ℚ), 3, 2] (by decide)⟩

/-! ### Basic facts about one iteration of the constclass loop -/

theorem evalBody_trained (env : Env) (e s a : ℕ) (st : LoopState) :
    (evalBody env e s a st).trained = st.trained := by
  simp only [evalBody]
  split_ifs <;> rfl

theorem evalBody_evals (env : Env) (e s a : ℕ) (st : LoopState) :
    (evalBody env e s a st).evals = st.evals ++ [a] := by
  simp only [evalBody]
  split_ifs <;> rfl

theorem evalBody_best (env : Env) (e s a : ℕ) (st : LoopState) :
    (evalBody env e s a st).best_acc = updateBest st.best_acc (env.acc a) := by
  simp only [evalBody, updateBest]
  split_ifs <;> rfl

theorem evalBody_lrc (env : Env) (e s a : ℕ) (st : LoopState) :
    (evalBody env e s a st).lrc = (st.lrc.add_value (env.acc a)).1 := by
  simp only [evalBody]
  split_ifs <;> rfl

theorem evalBody_ckpts (env : Env) (e s a : ℕ) (st : LoopState) :
    ∃ c : Ckpt, (evalBody env e s a st).ckpts = st.ckpts ++ [c] ∧
      c.epoch = e ∧ c.step = s := by
  simp only [evalBody]
  split_ifs <;> exact ⟨_, rfl, rfl, rfl⟩

theorem evalBody_terminate_of_ge (env : Env) (e s a : ℕ) (st : LoopState)
    (hpos : 0 < st.lrc.terminate_range)
    (hge : (st.lrc.add_value (env.acc a)).2 ≥ st.lrc.terminate_range) :
    (evalBody env e s a st).terminate = true := by
  have hr := (LearningRateController.add_value_ranges st.lrc (env.acc a)).2
  have hne : (st.lrc.add_value (env.acc a)).2 ≠ 0 := by omega
  simp only [evalBody]
  split_ifs <;> first | rfl | (exfalso; omega) | (simp_all <;> omega)

theorem evalBody_lr_of_decay (env : Env) (e s a : ℕ) (st : LoopState)
    (hne : (st.lrc.add_value (env.acc a)).2 ≠ 0)
    (hlt : (st.lrc.add_value (env.acc a)).2 < st.lrc.terminate_range)
    (hdvd : (st.lrc.add_value (env.acc a)).2 % st.lrc.weight_decay_range = 0) :
    (evalBody env e s a st).lr = st.lr / 2 := by
  have hr := LearningRateController.add_value_ranges st.lrc (env.acc a)
  simp only [evalBody]
  split_ifs <;> first | rfl | (exfalso; omega) | (simp_all <;> omega)

theorem evalBody_lr_of_noDecay (env : Env) (e s a : ℕ) (st : LoopState)
    (h : (st.lrc.add_value (env.acc a)).2 = 0 ∨
      ((st.lrc.add_value (env.acc a)).2 ≥ st.lrc.terminate_range ∨
       (st.lrc.add_value (env.acc a)).2 % st.lrc.weight_decay_range ≠ 0)) :
    (evalBody env e s a st).lr = st.lr := by
  have hr := LearningRateController.add_value_ranges st.lrc (env.acc a)
  simp only [evalBody]
  split_ifs <;> first | rfl | (exfalso; omega) | (simp_all <;> omega)

theorem evalBody_terminate_of_lt (env : Env) (e s a : ℕ) (st : LoopState)
    (hlt : (st.lrc.add_value (env.acc a)).2 < st.lrc.terminate_range) :
    (evalBody env e s a st).terminate = st.terminate := by
  have hr := LearningRateController.add_value_ranges st.lrc (env.acc a)
  simp only [evalBody]
  split_ifs <;> first | rfl | (exfalso; omega) | (simp_all <;> omega)

theorem evalBody_not_improved (env : Env) (e s a : ℕ) (st : LoopState) :
    (evalBody env e s a st).lrc.not_improved = (st.lrc.add_value (env.acc a)).2 := by
  rw [evalBody_lrc, LearningRateController.add_value_snd_eq]

theorem evalBody_ranges (env : Env) (e s a : ℕ) (st : LoopState) :
    (evalBody env e s a st).lrc.terminate_range = st.lrc.terminate_range ∧
    (evalBody env e s a st).lrc.weight_decay_range = st.lrc.weight_decay_range := by
  rw [evalBody_lrc]
  exact ⟨(LearningRateController.add_value_ranges _ _).2,
    (LearningRateController.add_value_ranges _ _).1⟩

theorem evalBody_exited (env : Env) (e s a : ℕ) (st : LoopState) :
    (evalBody env e s a st).exited = (st.exited || env.timeUp a) := by
  simp only [evalBody]
  split_ifs <;> simp_all

theorem evalBody_terminate_mono (env : Env) (e s a : ℕ) (st : LoopState)
    (h : st.terminate = true) : (evalBody env e s a st).terminate = true := by
  simp only [evalBody]
  split_ifs <;> simp_all

/-! ### Facts about the step function and the fold over batches -/

theorem stepBody_frozen (env : Env) (r : Resume) (e s : ℕ) (st : LoopState)
    (h : st.terminate = true ∨ st.exited = true) :
    stepBody env r e s st = st := by
  rcases h with h | h <;> simp [stepBody, h]

theorem stepBody_of_skip (env : Env) (r : Resume) (e s : ℕ) (st : LoopState)
    (hT : st.terminate = false) (hE : st.exited = false)
    (h : skipBatch r e s = true) :
    stepBody env r e s st = st := by
  simp [stepBody, hT, hE, h]

theorem stepBody_terminate_false (env : Env) (r : Resume) (e s : ℕ)
    (st : LoopState) (h : (stepBody env r e s st).terminate = false) :
    st.terminate = false := by
  by_contra hc
  rw [stepBody_frozen env r e s st (Or.inl (by simpa using hc))] at h
  simp_all

theorem stepBody_exited_false (env : Env) (r : Resume) (e s : ℕ)
    (st : LoopState) (h : (stepBody env r e s st).exited = false) :
    st.exited = false := by
  by_contra hc
  rw [stepBody_frozen env r e s st (Or.inr (by simpa using hc))] at h
  simp_all

theorem stepBody_trained_of_not_skip (env : Env) (r : Resume) (e s : ℕ)
    (st : LoopState) (hT : st.terminate = false) (hE : st.exited = false)
    (h : skipBatch r e s = false) :
    (stepBody env r e s st).trained = st.trained ++ [(e, s)] := by
  simp only [stepBody, hT, hE, h, Bool.or_self, Bool.false_eq_true, if_false]
  split_ifs with hcond
  · rw [evalBody_trained]
  · rfl

theorem runList_cons (env : Env) (r : Resume) (p : ℕ × ℕ) (l : List (ℕ × ℕ))
    (st : LoopState) :
    runList env r (p :: l) st = runList env r l (stepBody env r p.1 p.2 st) := rfl

theorem runList_frozen (env : Env) (r : Resume) (l : List (ℕ × ℕ))
    (st : LoopState) (h : st.terminate = true ∨ st.exited = true) :
    runList env r l st = st := by
  induction l with
  | nil => rfl
  | cons p l ih => rw [runList_cons, stepBody_frozen env r p.1 p.2 st h]; exact ih

theorem runList_terminate_false (env : Env) (r : Resume) (l : List (ℕ × ℕ))
    (st : LoopState) (h : (runList env r l st).terminate = false) :
    st.terminate = false := by
  by_contra hc
  rw [runList_frozen env r l st (Or.inl (by simpa using hc))] at h
  simp_all

theorem runList_exited_false (env : Env) (r : Resume) (l : List (ℕ × ℕ))
    (st : LoopState) (h : (runList env r l st).exited = false) :
    st.exited = false := by
  by_contra hc
  rw [runList_frozen env r l st (Or.inr (by simpa using hc))] at h
  simp_all

/-- Under a run that neither terminated early nor hit the time limit, the
batches trained on are exactly the non-skipped batches, in order. -/
theorem runList_trained (env : Env) (r : Resume) (l : List (ℕ × ℕ)) :
    ∀ st : LoopState,
    (runList env r l st).terminate = false →
    (runList env r l st).exited = false →
    (runList env r l st).trained =
      st.trained ++ l.filter (fun p => !skipBatch r p.1 p.2) := by
  induction l with
  | nil => intro st _ _; simp [runList]
  | cons p l ih =>
      intro st hterm hexit
      rw [runList_cons] at hterm hexit ⊢
      have hT : st.terminate = false :=
        stepBody_terminate_false env r p.1 p.2 st
          (runList_terminate_false env r l _ hterm)
      have hE : st.exited = false :=
        stepBody_exited_false env r p.1 p.2 st
          (runList_exited_false env r l _ hexit)
      by_cases hskip : skipBatch r p.1 p.2 = true
      · rw [stepBody_of_skip env r p.1 p.2 st hT hE hskip] at hterm hexit ⊢
        rw [ih st hterm hexit]
        simp [List.filter_cons, hskip]
      · have hskip' : skipBatch r p.1 p.2 = false := by simpa using hskip
        rw [ih _ hterm hexit,
          stepBody_trained_of_not_skip env r p.1 p.2 st hT hE hskip']
        simp [List.filter_cons, hskip']

/-- Validation history produced by one step: either nothing happens, or one
validation at the step's `actual_step` (a multiple of `eval_step`) updates
the best metric and appends one checkpoint whose `(epoch, step)` lies at
that validation point. -/
theorem stepBody_hist (env : Env) (r : Resume) (e s : ℕ) (st : LoopState) :
    ∃ ext : List ℕ,
      (stepBody env r e s st).evals = st.evals ++ ext ∧
      (stepBody env r e s st).best_acc = bestAfter st.best_acc (ext.map env.acc) ∧
      (stepBody env r e s st).ckpts.length = st.ckpts.length + ext.length ∧
      (∀ a ∈ ext, a % env.eval_step = 0) ∧
      (∀ c ∈ (stepBody env r e s st).ckpts,
        c ∈ st.ckpts ∨ (env.N * c.epoch + c.step + 1) % env.eval_step = 0) := by
  by_cases hF : st.terminate = true ∨ st.exited = true
  · rw [stepBody_frozen env r e s st hF]
    exact ⟨[], by simp, by simp [bestAfter], by simp, by simp,
      fun c hc => Or.inl hc⟩
  · push_neg at hF
    have hT : st.terminate = false := by simpa using hF.1
    have hE : st.exited = false := by simpa using hF.2
    by_cases hskip : skipBatch r e s = true
    · rw [stepBody_of_skip env r e s st hT hE hskip]
      exact ⟨[], by simp, by simp [bestAfter], by simp, by simp,
        fun c hc => Or.inl hc⟩
    · have hskip' : skipBatch r e s = false := by simpa using hskip
      simp only [stepBody, hT, hE, hskip', Bool.or_self, Bool.false_eq_true,
        if_false]
      split_ifs with hcond
      · obtain ⟨c, hc, hce, hcs⟩ := evalBody_ckpts env e s (env.N * e + s + 1) _
        refine ⟨[env.N * e + s + 1], ?_, ?_, ?_, ?_, ?_⟩
        · rw [evalBody_evals]
        · rw [evalBody_best]; rfl
        · rw [hc]; simp
        · intro a ha
          rw [List.mem_singleton] at ha
          rw [ha]; exact hcond
        · intro c' hc'
          rw [hc] at hc'
          rcases List.mem_append.mp hc' with h | h
          · exact Or.inl h
          · rw [List.mem_singleton] at h
            subst h
            rw [hce, hcs]
            exact Or.inr hcond
      · exact ⟨[], by simp, by simp [bestAfter], by simp, by simp,
          fun c hc => Or.inl hc⟩

/-- Validation history over a whole run: the best metric is the fold of the
best-update over the accuracies of the validations that happened, every
validation happened at an `actual_step` divisible by `eval_step`, and
exactly one checkpoint was saved per validation, each at a validation
point. -/
theorem runList_hist (env : Env) (r : Resume) (l : List (ℕ × ℕ)) :
    ∀ st : LoopState, ∃ ext : List ℕ,
      (runList env r l st).evals = st.evals ++ ext ∧
      (runList env r l st).best_acc = bestAfter st.best_acc (ext.map env.acc) ∧
      (runList env r l st).ckpts.length = st.ckpts.length + ext.length ∧
      (∀ a ∈ ext, a % env.eval_step = 0) ∧
      (∀ c ∈ (runList env r l st).ckpts,
        c ∈ st.ckpts ∨ (env.N * c.epoch + c.step + 1) % env.eval_step = 0) := by
  induction l with
  | nil =>
      intro st
      exact ⟨[], by simp [runList], by simp [runList, bestAfter],
        by simp [runList], by simp, fun c hc => Or.inl hc⟩
  | cons p l ih =>
      intro st
      obtain ⟨e1, h1e, h1b, h1c, h1m, h1mem⟩ := stepBody_hist env r p.1 p.2 st
      obtain ⟨e2, h2e, h2b, h2c, h2m, h2mem⟩ := ih (stepBody env r p.1 p.2 st)
      refine ⟨e1 ++ e2, ?_, ?_, ?_, ?_, ?_⟩
      · rw [runList_cons, h2e, h1e, List.append_assoc]
      · rw [runList_cons, h2b, h1b]
        simp [bestAfter, List.foldl_append]
      · rw [runList_cons, h2c, h1c]
        simp [Nat.add_assoc]
      · intro a ha
        rcases List.mem_append.mp ha with h | h
        · exact h1m a h
        · exact h2m a h
      · intro c hc
        rw [runList_cons] at hc
        rcases h2mem c hc with h | h
        · exact h1mem c h
        · exact Or.inr h

/-! ### The termination invariant: a controller count at or past
`terminate_range` always comes with the `terminate` flag set -/

theorem evalBody_terminv (env : Env) (e s a : ℕ) (st : LoopState)
    (hpos : 0 < st.lrc.terminate_range) :
    0 < (evalBody env e s a st).lrc.terminate_range ∧
    ((evalBody env e s a st).lrc.terminate_range ≤
        (evalBody env e s a st).lrc.not_improved →
      (evalBody env e s a st).terminate = true) := by
  have hr := (evalBody_ranges env e s a st).1
  refine ⟨by rw [hr]; exact hpos, ?_⟩
  intro hge
  rw [evalBody_not_improved, hr] at hge
  exact evalBody_terminate_of_ge env e s a st hpos hge

theorem stepBody_terminv (env : Env) (r : Resume) (e s : ℕ) (st : LoopState)
    (h : 0 < st.lrc.terminate_range ∧
      (st.lrc.terminate_range ≤ st.lrc.not_improved → st.terminate = true)) :
    0 < (stepBody env r e s st).lrc.terminate_range ∧
    ((stepBody env r e s st).lrc.terminate_range ≤
        (stepBody env r e s st).lrc.not_improved →
      (stepBody env r e s st).terminate = true) := by
  by_cases hF : st.terminate = true ∨ st.exited = true
  · rw [stepBody_frozen env r e s st hF]; exact h
  · push_neg at hF
    have hT : st.terminate = false := by simpa using hF.1
    have hE : st.exited = false := by simpa using hF.2
    by_cases hskip : skipBatch r e s = true
    · rw [stepBody_of_skip env r e s st hT hE hskip]; exact h
    · have hskip' : skipBatch r e s = false := by simpa using hskip
      simp only [stepBody, hT, hE, hskip', Bool.or_self, Bool.false_eq_true,
        if_false]
      split_ifs with hcond
      · exact evalBody_terminv env e s _ _ h.1
      · refine ⟨h.1, fun hge => ?_⟩
        exact absurd (h.2 hge) (by simp [hT])

theorem runList_terminv (env : Env) (r : Resume) (l : List (ℕ × ℕ)) :
    ∀ st : LoopState,
    0 < st.lrc.terminate_range →
    (st.lrc.terminate_range ≤ st.lrc.not_improved → st.terminate = true) →
    0 < (runList env r l st).lrc.terminate_range ∧
    ((runList env r l st).lrc.terminate_range ≤
        (runList env r l st).lrc.not_improved →
      (runList env r l st).terminate = true) := by
  induction l with
  | nil => intro st h1 h2; exact ⟨h1, h2⟩
  | cons p l ih =>
      intro st h1 h2
      rw [runList_cons]
      obtain ⟨h1', h2'⟩ := stepBody_terminv env r p.1 p.2 st ⟨h1, h2⟩
      exact ih _ h1' h2'

/-- C3: threshold-based decay and termination.  The controller is built
with `weight_decay_range = 5`, `terminate_range = 20`; a resumed run whose
loaded controller already has `not_improved >= terminate_range` tests the
best model and exits without training a single batch; at a validation, a
returned count at or past `terminate_range` sets the terminate flag, and a
positive count below `terminate_range` divisible by `weight_decay_range`
halves the learning rate; a terminated state trains no further batch, and
throughout a run a count at or past `terminate_range` implies the
terminate flag. -/
theorem trainLoop_decay_terminate :
    (LearningRateController.init.weight_decay_range = 5 ∧
     LearningRateController.init.terminate_range = 20) ∧
    (∀ (env : Env) (ck : Ckpt),
      ck.lr_controller.terminate_range ≤ ck.lr_controller.not_improved →
      (runMain env (some ck)).trainedSteps = [] ∧
      ∀ m, ck.best_model = some m →
        runMain env (some ck) = .testedEarly (env.testAcc m) (loadCkpt ck)) ∧
    (∀ (env : Env) (e s a : ℕ) (st : LoopState),
      0 < st.lrc.terminate_range →
      (st.lrc.terminate_range ≤ (st.lrc.add_value (env.acc a)).2 →
        (evalBody env e s a st).terminate = true) ∧
      ((st.lrc.add_value (env.acc a)).2 ≠ 0 →
       (st.lrc.add_value (env.acc a)).2 < st.lrc.terminate_range →
       (st.lrc.add_value (env.acc a)).2 % st.lrc.weight_decay_range = 0 →
        (evalBody env e s a st).lr = st.lr / 2)) ∧
    (∀ (env : Env) (r : Resume) (e s : ℕ) (st : LoopState),
      st.terminate = true → stepBody env r e s st = st) ∧
    (∀ (env : Env) (r : Resume) (st : LoopState),
      st.terminate = true → runLoop env r st = st) ∧
    (∀ (env : Env) (r : Resume) (st : LoopState),
      0 < st.lrc.terminate_range →
      (st.lrc.terminate_range ≤ st.lrc.not_improved → st.terminate = true) →
      ((runLoop env r st).lrc.terminate_range ≤
          (runLoop env r st).lrc.not_improved →
        (runLoop env r st).terminate = true)) := by
  refine ⟨⟨rfl, rfl⟩, ?_, ?_, ?_, ?_, ?_⟩
  · intro env ck h
    simp only [runMain]
    rw [if_pos h]
    cases hb : ck.best_model with
    | none =>
        refine ⟨rfl, ?_⟩
        intro m hm
        exact absurd hm (by simp)
    | some m' =>
        refine ⟨rfl, ?_⟩
        intro m hm
        injection hm with hmm
        subst hmm
        rfl
  · intro env e s a st hpos
    exact ⟨fun hge => evalBody_terminate_of_ge env e s a st hpos hge,
      fun hne hlt hdvd => evalBody_lr_of_decay env e s a st hne hlt hdvd⟩
  · intro env r e s st h
    exact stepBody_frozen env r e s st (Or.inl h)
  · intro env r st h
    exact runList_frozen env r (allBatches env) st (Or.inl h)
  · intro env r st h1 h2
    exact (runList_terminv env r (allBatches env) st h1 h2).2

theorem trainLoop_decay_terminate_witness :
    (ckptStopped.lr_controller.terminate_range ≤
        ckptStopped.lr_controller.not_improved ∧
      (runMain envEvery (some ckptStopped)).trainedSteps = [] ∧
      runMain envEvery (some ckptStopped) =
        .testedEarly (envEvery.testAcc 3) (loadCkpt ckptStopped)) ∧
    (0 < stNearStop.lrc.terminate_range ∧
      (evalBody envEvery 0 0 1 stNearStop).terminate = true) ∧
    (0 < stNearDecay.lrc.terminate_range ∧
      (evalBody envEvery 0 0 1 stNearDecay).lr = stNearDecay.lr / 2) := by
  refine ⟨⟨by decide, ?_, ?_⟩, ⟨by decide, ?_⟩, ⟨by decide, ?_⟩⟩
  · exact (trainLoop_decay_terminate.2.1 envEvery ckptStopped (by decide)).1
  · exact (trainLoop_decay_terminate.2.1 envEvery ckptStopped (by decide)).2 3 rfl
  · exact (trainLoop_decay_terminate.2.2.1 envEvery 0 0 1 stNearStop
      (by decide)).1 (by decide)
  · exact (trainLoop_decay_terminate.2.2.1 envEvery 0 0 1 stNearDecay
      (by decide)).2 (by decide) (by decide) (by decide)

/-- C4: checkpoint round-trip and batch-skip on resume.  Loading the
checkpoint written at `(e, s)` restores every saved field — model weights,
encoder weighing parameters, best model, best weighing parameters, best
accuracy, optimizer state (the learning rate), learning-rate controller and
CUDA RNG state — to its value at save time, and sets the resume coordinates
to `(e, s)`; the skip test of the resumed loop holds exactly on batches
lexicographically at or before the checkpointed `(epoch, step)`; and a
resumed run that neither terminates early nor hits the time limit trains
exactly the batches after the checkpointed position, in order. -/
theorem checkpoint_roundtrip_skip :
    (∀ (st : LoopState) (e s : ℕ),
      (loadCkpt (saveCkpt st e s)).modelW = st.modelW ∧
      (loadCkpt (saveCkpt st e s)).weighing = st.weighing ∧
      (loadCkpt (saveCkpt st e s)).best_model = st.best_model ∧
      (loadCkpt (saveCkpt st e s)).best_weighing = st.best_weighing ∧
      (loadCkpt (saveCkpt st e s)).best_acc = st.best_acc ∧
      (loadCkpt (saveCkpt st e s)).lr = st.lr ∧
      (loadCkpt (saveCkpt st e s)).lrc = st.lrc ∧
      (loadCkpt (saveCkpt st e s)).cudaRng = st.cudaRng ∧
      resumeOf (saveCkpt st e s) = ⟨e, (s : ℤ)⟩) ∧
    (∀ (p : ℕ × ℕ) (ck : Ckpt),
      skipBatch (resumeOf ck) p.1 p.2 = lexLe p (ck.epoch, ck.step)) ∧
    (∀ (env : Env) (ck : Ckpt),
      (runLoop env (resumeOf ck) (loadCkpt ck)).terminate = false →
      (runLoop env (resumeOf ck) (loadCkpt ck)).exited = false →
      (runLoop env (resumeOf ck) (loadCkpt ck)).trained =
        (allBatches env).filter fun p => !lexLe p (ck.epoch, ck.step)) := by
  have hskiplex : ∀ (p : ℕ × ℕ) (ck : Ckpt),
      skipBatch (resumeOf ck) p.1 p.2 = lexLe p (ck.epoch, ck.step) := by
    intro p ck
    simp only [skipBatch, lexLe, resumeOf]
    have hd : decide ((p.2 : ℤ) ≤ (ck.step : ℤ)) = decide (p.2 ≤ ck.step) :=
      decide_eq_decide.mpr Nat.cast_le
    rw [hd]
  refine ⟨fun st e s => ⟨rfl, rfl, rfl, rfl, rfl, rfl, rfl, rfl, rfl⟩,
    hskiplex, ?_⟩
  intro env ck hterm hexit
  have hrl : runLoop env (resumeOf ck) (loadCkpt ck) =
      runList env (resumeOf ck) (allBatches env) (loadCkpt ck) := rfl
  have h := runList_trained env (resumeOf ck) (allBatches env)
    (loadCkpt ck) hterm hexit
  rw [hrl, h]
  have hnil : (loadCkpt ck).trained = [] := rfl
  rw [hnil, List.nil_append]
  exact List.filter_congr fun p _ => by rw [hskiplex p ck]

theorem checkpoint_roundtrip_skip_witness :
    (runLoop envNoEval (resumeOf ckptLive) (loadCkpt ckptLive)).terminate
        = false ∧
    (runLoop envNoEval (resumeOf ckptLive) (loadCkpt ckptLive)).exited
        = false ∧
    (runLoop envNoEval (resumeOf ckptLive) (loadCkpt ckptLive)).trained =
      (allBatches envNoEval).filter fun p =>
        !lexLe p (ckptLive.epoch, ckptLive.step) :=
  ⟨by decide, by decide,
    checkpoint_roundtrip_skip.2.2 envNoEval ckptLive (by decide) (by decide)⟩

/-- C5: the constclass checkpoint dictionary has keys `model`, `optimizer`,
`cuda_rng_state`, `epoch`, `step`, `best_acc` and `lr_controller` (among
others), the coref one has exactly the keys `model_state_dict`,
`optimizer_state_dict`, `scheduler_state_dict`, `rng_state`, `steps_done`
and `max_f1`, and both record constructors store the live values of those
fields. -/
theorem checkpoint_record_fields :
    ("model" ∈ constclassCkptKeys ∧ "optimizer" ∈ constclassCkptKeys ∧
     "cuda_rng_state" ∈ constclassCkptKeys ∧ "epoch" ∈ constclassCkptKeys ∧
     "step" ∈ constclassCkptKeys ∧ "best_acc" ∈ constclassCkptKeys ∧
     "lr_controller" ∈ constclassCkptKeys) ∧
    corefCkptKeys = ["steps_done", "max_f1", "model_state_dict",
      "optimizer_state_dict", "scheduler_state_dict", "rng_state"] ∧
    (∀ (m o sc r sd : ℕ) (f : ℚ),
      (save_model m o sc r sd f).steps_done = sd ∧
      (save_model m o sc r sd f).max_f1 = f ∧
      (save_model m o sc r sd f).model_state_dict = m ∧
      (save_model m o sc r sd f).optimizer_state_dict = o ∧
      (save_model m o sc r sd f).scheduler_state_dict = sc ∧
      (save_model m o sc r sd f).rng_state = r) ∧
    (∀ (st : LoopState) (e s : ℕ),
      (saveCkpt st e s).model = st.modelW ∧
      (saveCkpt st e s).optimizer = st.lr ∧
      (saveCkpt st e s).cuda_rng_state = st.cudaRng ∧
      (saveCkpt st e s).epoch = e ∧
      (saveCkpt st e s).step = s ∧
      (saveCkpt st e s).best_acc = st.best_acc ∧
      (saveCkpt st e s).lr_controller = st.lrc) :=
  ⟨by decide, rfl,
    fun m o sc r sd f => ⟨rfl, rfl, rfl, rfl, rfl, rfl⟩,
    fun st e s => ⟨rfl, rfl, rfl, rfl, rfl, rfl, rfl⟩⟩

/-- C6 counterexample: a concrete run whose checkpoint file is absent
completes normally and reports a final test metric — no framework error
propagates out of it, because the scripts guard the load behind
`os.path.exists`. -/
theorem missingCkpt_counterexample :
    (runMain envEvery none).isFinished = true := by decide

/-- C6 amended: when the checkpoint file is absent, both scripts skip the
load via an explicit `os.path.exists` check — the constclass `__main__`
runs fresh training, the coref `main` keeps its default state and trains
fresh, and coref's `final_eval` silently does nothing — so the absence
raises nothing; the scripts install no exception handler, so a failure
that does occur (here: the constclass `assert best_model is not None`)
propagates out of the run unhandled. -/
theorem missingCkpt_guarded :
    (∀ env : Env, runMain env none = mainFresh env) ∧
    (∀ (env : Env) (st : LoopState), st.exited = false →
      st.best_model = none → finishRun env st = .assertErr st) ∧
    corefResumeState none = corefFreshState ∧
    (∀ t : ℕ → ℚ, final_eval t none = none) ∧
    (∀ (env : CorefEnv) (hb : 0 < env.nBatches) (t : ℕ → ℚ),
      corefMain env hb t false none =
        .trained (corefTrain env hb corefFreshState)
          (final_eval t
            (corefBestFile none (corefTrain env hb corefFreshState)))) ∧
    (∀ (env : CorefEnv) (hb : 0 < env.nBatches) (t : ℕ → ℚ),
      corefMain env hb t true none = .evalOnly none) := by
  refine ⟨fun env => rfl, ?_, rfl, fun t => rfl,
    fun env hb t => rfl, fun env hb t => rfl⟩
  intro env st hE hB
  simp [finishRun, hE, hB]

theorem missingCkpt_guarded_witness :
    runMain envNoEval none = mainFresh envNoEval ∧
    (freshState envEvery).exited = false ∧
    (freshState envEvery).best_model = none ∧
    finishRun envEvery (freshState envEvery) =
      .assertErr (freshState envEvery) ∧
    0 < cenvSmall.nBatches ∧
    corefMain cenvSmall Nat.one_pos (fun _ => 1) false none =
      .trained (corefTrain cenvSmall Nat.one_pos corefFreshState)
        (final_eval (fun _ => 1)
          (corefBestFile none
            (corefTrain cenvSmall Nat.one_pos corefFreshState))) :=
  ⟨missingCkpt_guarded.1 envNoEval, by decide, by decide,
    missingCkpt_guarded.2.1 envEvery (freshState envEvery) rfl rfl,
    Nat.one_pos,
    missingCkpt_guarded.2.2.2.2.1 cenvSmall Nat.one_pos (fun _ => 1)⟩

/-- C9: `validate` saves both global torch RNG states on entry and
restores them on exit, so the states after a call equal the states before
it, whatever the evaluation loop did to them; the returned accuracy does
not depend on the RNG state either. -/
theorem validate_preserves_rng :
    ∀ (loop : RngPair → RngPair) (batches : List VBatch) (rng : RngPair),
      (validate loop batches rng).1 = rng ∧
      ∀ (loop2 : RngPair → RngPair) (rng2 : RngPair),
        (validate loop batches rng).2 = (validate loop2 batches rng2).2 :=
  fun loop batches rng => ⟨rfl, fun loop2 rng2 => rfl⟩

/-- C10: `get_model_name` is a function of the hash of the string built
from the eleven `imp_opts` only, so two argument namespaces that agree on
`model`, `model_size`, `batch_size`, `n_epochs`, `fine_tune`, `span_dim`,
`pool_method`, `train_frac`, `seed`, `lr` and `lr_tune` get the same model
name (hence the same checkpoint directory), whatever their other options. -/
theorem get_model_name_depends_on_imp_opts (md5hex : String → String)
    (hp1 hp2 : CorefHp)
    (h1 : hp1.model = hp2.model) (h2 : hp1.model_size = hp2.model_size)
    (h3 : hp1.batch_size = hp2.batch_size) (h4 : hp1.n_epochs = hp2.n_epochs)
    (h5 : hp1.fine_tune = hp2.fine_tune) (h6 : hp1.span_dim = hp2.span_dim)
    (h7 : hp1.pool_method = hp2.pool_method)
    (h8 : hp1.train_frac = hp2.train_frac) (h9 : hp1.seed = hp2.seed)
    (h10 : hp1.lr = hp2.lr) (h11 : hp1.lr_tune = hp2.lr_tune) :
    get_model_name md5hex hp1 = get_model_name md5hex hp2 := by
  unfold get_model_name strRepr
  rw [h1, h2, h3, h4, h5, h6, h7, h8, h9, h10, h11]

theorem get_model_name_depends_on_imp_opts_witness :
    get_model_name (fun s => s)
        ⟨"dirA", "ckptA", 32, 32, 5, 1/10000, 1/100000, 256, "bert", "base",
          false, "avg", 1, 0, false⟩ =
      get_model_name (fun s => s)
        ⟨"dirB", "ckptB", 32, 64, 5, 1/10000, 1/100000, 256, "bert", "base",
          false, "avg", 1, 0, true⟩ :=
  get_model_name_depends_on_imp_opts (fun s => s) _ _
    rfl rfl rfl rfl rfl rfl rfl rfl rfl rfl rfl

/-! ### The coref `train` loop: step counting and validation history -/

theorem corefStep_steps (env : CorefEnv) (st : CorefState) :
    (corefStep env st).steps_done = st.steps_done + 1 := by
  simp only [corefStep]
  split_ifs <;> rfl

theorem corefList_steps (env : CorefEnv) (l : List ℕ) :
    ∀ st : CorefState,
    (l.foldl (fun s _ => corefStep env s) st).steps_done =
      st.steps_done + l.length := by
  induction l with
  | nil => intro st; simp
  | cons a l ih =>
      intro st
      simp only [List.foldl_cons, ih, corefStep_steps, List.length_cons]
      omega

theorem corefEpoch_steps (env : CorefEnv) (st : CorefState) :
    (corefEpoch env st).steps_done = st.steps_done + env.nBatches := by
  simpa using corefList_steps env (List.range env.nBatches) st

theorem corefStep_hist (env : CorefEnv) (st : CorefState) :
    ∃ ext : List ℕ,
      (corefStep env st).evals = st.evals ++ ext ∧
      (corefStep env st).max_f1 = bestAfter st.max_f1 (ext.map env.f1) ∧
      (corefStep env st).regCkpts.length = st.regCkpts.length + ext.length ∧
      (∀ a ∈ ext, a % env.EVAL_STEPS = 0) ∧
      (∀ c ∈ (corefStep env st).regCkpts,
        c ∈ st.regCkpts ∨ c.steps_done % env.EVAL_STEPS = 0) := by
  simp only [corefStep]
  split_ifs with hcond hbest
  · refine ⟨[st.steps_done + 1], rfl, ?_, by simp, ?_, ?_⟩
    · simp only [List.map_cons, List.map_nil, bestAfter, List.foldl_cons,
        List.foldl_nil, updateBest]
      rw [if_pos hbest]
    · intro a ha
      rw [List.mem_singleton] at ha
      rw [ha]; exact hcond
    · intro c hc
      rcases List.mem_append.mp hc with h | h
      · exact Or.inl h
      · rw [List.mem_singleton] at h
        subst h
        exact Or.inr hcond
  · refine ⟨[st.steps_done + 1], rfl, ?_, by simp, ?_, ?_⟩
    · simp only [List.map_cons, List.map_nil, bestAfter, List.foldl_cons,
        List.foldl_nil, updateBest]
      rw [if_neg hbest]
    · intro a ha
      rw [List.mem_singleton] at ha
      rw [ha]; exact hcond
    · intro c hc
      rcases List.mem_append.mp hc with h | h
      · exact Or.inl h
      · rw [List.mem_singleton] at h
        subst h
        exact Or.inr hcond
  · exact ⟨[], by simp, by simp [bestAfter], by simp, by simp,
      fun c hc => Or.inl hc⟩

theorem corefList_hist (env : CorefEnv) (l : List ℕ) :
    ∀ st : CorefState, ∃ ext : List ℕ,
      ((l.foldl (fun s _ => corefStep env s) st)).evals = st.evals ++ ext ∧
      ((l.foldl (fun s _ => corefStep env s) st)).max_f1 =
        bestAfter st.max_f1 (ext.map env.f1) ∧
      ((l.foldl (fun s _ => corefStep env s) st)).regCkpts.length =
        st.regCkpts.length + ext.length ∧
      (∀ a ∈ ext, a % env.EVAL_STEPS = 0) ∧
      (∀ c ∈ ((l.foldl (fun s _ => corefStep env s) st)).regCkpts,
        c ∈ st.regCkpts ∨ c.steps_done % env.EVAL_STEPS = 0) := by
  induction l with
  | nil =>
      intro st
      exact ⟨[], by simp, by simp [bestAfter], by simp, by simp,
        fun c hc => Or.inl hc⟩
  | cons x l ih =>
      intro st
      obtain ⟨e1, h1e, h1b, h1c, h1m, h1mem⟩ := corefStep_hist env st
      obtain ⟨e2, h2e, h2b, h2c, h2m, h2mem⟩ := ih (corefStep env st)
      refine ⟨e1 ++ e2, ?_, ?_, ?_, ?_, ?_⟩
      · rw [List.foldl_cons, h2e, h1e, List.append_assoc]
      · rw [List.foldl_cons, h2b, h1b]
        simp [bestAfter, List.foldl_append]
      · rw [List.foldl_cons, h2c, h1c]
        simp [Nat.add_assoc]
      · intro a ha
        rcases List.mem_append.mp ha with h | h
        · exact h1m a h
        · exact h2m a h
      · intro c hc
        rw [List.foldl_cons] at hc
        rcases h2mem c hc with h | h
        · exact h1mem c h
        · exact Or.inr h

theorem corefTrain_hist (env : CorefEnv) (hb : 0 < env.nBatches) :
    ∀ st : CorefState, ∃ ext : List ℕ,
      (corefTrain env hb st).evals = st.evals ++ ext ∧
      (corefTrain env hb st).max_f1 = bestAfter st.max_f1 (ext.map env.f1) ∧
      (corefTrain env hb st).regCkpts.length =
        st.regCkpts.length + ext.length ∧
      (∀ a ∈ ext, a % env.EVAL_STEPS = 0) ∧
      (∀ c ∈ (corefTrain env hb st).regCkpts,
        c ∈ st.regCkpts ∨ c.steps_done % env.EVAL_STEPS = 0) := by
  suffices H : ∀ (k : ℕ) (st : CorefState), env.num_steps - st.steps_done ≤ k →
      ∃ ext : List ℕ,
        (corefTrain env hb st).evals = st.evals ++ ext ∧
        (corefTrain env hb st).max_f1 = bestAfter st.max_f1 (ext.map env.f1) ∧
        (corefTrain env hb st).regCkpts.length =
          st.regCkpts.length + ext.length ∧
        (∀ a ∈ ext, a % env.EVAL_STEPS = 0) ∧
        (∀ c ∈ (corefTrain env hb st).regCkpts,
          c ∈ st.regCkpts ∨ c.steps_done % env.EVAL_STEPS = 0) by
    intro st
    exact H (env.num_steps - st.steps_done) st le_rfl
  intro k
  induction k with
  | zero =>
      intro st hk
      have hstop : ¬ st.steps_done < env.num_steps := by omega
      rw [corefTrain, dif_neg hstop]
      exact ⟨[], by simp, by simp [bestAfter], by simp, by simp,
        fun c hc => Or.inl hc⟩
  | succ k ih =>
      intro st hk
      by_cases h : st.steps_done < env.num_steps
      · rw [corefTrain, dif_pos h]
        have hsteps := corefEpoch_steps env st
        obtain ⟨e1, h1e, h1b, h1c, h1m, h1mem⟩ :=
          corefList_hist env (List.range env.nBatches) st
        obtain ⟨e2, h2e, h2b, h2c, h2m, h2mem⟩ :=
          ih (corefEpoch env st) (by omega)
        refine ⟨e1 ++ e2, ?_, ?_, ?_, ?_, ?_⟩
        · rw [h2e]
          rw [show (corefEpoch env st).evals = st.evals ++ e1 from h1e]
          rw [List.append_assoc]
        · rw [h2b]
          rw [show (corefEpoch env st).max_f1 =
            bestAfter st.max_f1 (e1.map env.f1) from h1b]
          simp [bestAfter, List.foldl_append]
        · rw [h2c]
          rw [show (corefEpoch env st).regCkpts.length =
            st.regCkpts.length + e1.length from h1c]
          simp [Nat.add_assoc]
        · intro a ha
          rcases List.mem_append.mp ha with hx | hx
          · exact h1m a hx
          · exact h2m a hx
        · intro c hc
          rcases h2mem c hc with hx | hx
          · exact h1mem c hx
          · exact Or.inr hx
      · rw [corefTrain, dif_neg h]
        exact ⟨[], by simp, by simp [bestAfter], by simp, by simp,
          fun c hc => Or.inl hc⟩

/-! ### Best-metric helper lemmas -/

theorem updateBest_eq_max (b v : ℚ) : updateBest b v = max b v := by
  unfold updateBest
  split_ifs with h
  · exact (max_eq_right h.le).symm
  · exact (max_eq_left (not_lt.mp h)).symm

theorem bestAfter_eq_listMax (b : ℚ) (vals : List ℚ) :
    bestAfter b vals = listMax (b :: vals) := by
  show List.foldl updateBest b vals = List.foldl max b vals
  induction vals generalizing b with
  | nil => rfl
  | cons v vs ih => simp only [List.foldl_cons, updateBest_eq_max, ih]

theorem bestAfter_le_snoc (b : ℚ) (vals : List ℚ) (v : ℚ) :
    bestAfter b vals ≤ bestAfter b (vals ++ [v]) := by
  unfold bestAfter
  rw [List.foldl_append, List.foldl_cons, List.foldl_nil, updateBest_eq_max]
  exact le_max_left _ _

/-! ### Validation points are exactly the step counts divisible by the
evaluation interval -/

theorem stepBody_exact (env : Env) (r : Resume) (e s : ℕ) (st : LoopState) :
    ∃ newT : List (ℕ × ℕ),
      (stepBody env r e s st).trained = st.trained ++ newT ∧
      (stepBody env r e s st).evals = st.evals ++
        ((newT.map fun p => env.N * p.1 + p.2 + 1).filter
          fun a => a % env.eval_step = 0) := by
  by_cases hF : st.terminate = true ∨ st.exited = true
  · rw [stepBody_frozen env r e s st hF]
    exact ⟨[], by simp, by simp⟩
  · push_neg at hF
    have hT : st.terminate = false := by simpa using hF.1
    have hE : st.exited = false := by simpa using hF.2
    by_cases hskip : skipBatch r e s = true
    · rw [stepBody_of_skip env r e s st hT hE hskip]
      exact ⟨[], by simp, by simp⟩
    · have hskip' : skipBatch r e s = false := by simpa using hskip
      simp only [stepBody, hT, hE, hskip', Bool.or_self, Bool.false_eq_true,
        if_false]
      split_ifs with hcond
      · refine ⟨[(e, s)], ?_, ?_⟩
        · rw [evalBody_trained]
        · rw [evalBody_evals]
          simp [hcond]
      · exact ⟨[(e, s)], rfl, by simp [hcond]⟩

theorem runList_exact (env : Env) (r : Resume) (l : List (ℕ × ℕ)) :
    ∀ st : LoopState, ∃ newT : List (ℕ × ℕ),
      (runList env r l st).trained = st.trained ++ newT ∧
      (runList env r l st).evals = st.evals ++
        ((newT.map fun p => env.N * p.1 + p.2 + 1).filter
          fun a => a % env.eval_step = 0) := by
  induction l with
  | nil => intro st; exact ⟨[], by simp [runList], by simp [runList]⟩
  | cons p l ih =>
      intro st
      obtain ⟨t1, h1t, h1e⟩ := stepBody_exact env r p.1 p.2 st
      obtain ⟨t2, h2t, h2e⟩ := ih (stepBody env r p.1 p.2 st)
      refine ⟨t1 ++ t2, ?_, ?_⟩
      · rw [runList_cons, h2t, h1t, List.append_assoc]
      · rw [runList_cons, h2e, h1e, List.map_append, List.filter_append,
          List.append_assoc]

theorem range'_compose (m : ℕ) :
    ∀ a n : ℕ, List.range' a m ++ List.range' (a + m) n =
      List.range' a (m + n) := by
  induction m with
  | zero => intro a n; simp
  | succ m ih =>
      intro a n
      have h1 : a + (m + 1) = (a + 1) + m := by omega
      have h2 : m + 1 + n = (m + n) + 1 := by omega
      rw [h1, h2, List.range'_succ, List.range'_succ, List.cons_append,
        ih (a + 1) n]

theorem corefStep_exact (env : CorefEnv) (st : CorefState) :
    (corefStep env st).steps_done = st.steps_done + 1 ∧
    (corefStep env st).evals = st.evals ++
      ((List.range' (st.steps_done + 1) 1).filter
        fun a => a % env.EVAL_STEPS = 0) := by
  refine ⟨corefStep_steps env st, ?_⟩
  simp only [corefStep]
  split_ifs with hcond hbest <;> simp [List.range', hcond]

theorem corefList_exact (env : CorefEnv) (l : List ℕ) :
    ∀ st : CorefState,
      ((l.foldl (fun s _ => corefStep env s) st)).steps_done =
        st.steps_done + l.length ∧
      ((l.foldl (fun s _ => corefStep env s) st)).evals = st.evals ++
        ((List.range' (st.steps_done + 1) l.length).filter
          fun a => a % env.EVAL_STEPS = 0) := by
  induction l with
  | nil => intro st; exact ⟨by simp, by simp⟩
  | cons x l ih =>
      intro st
      obtain ⟨h1s, h1e⟩ := corefStep_exact env st
      obtain ⟨h2s, h2e⟩ := ih (corefStep env st)
      refine ⟨by rw [List.foldl_cons, h2s, h1s, List.length_cons]; omega, ?_⟩
      rw [List.foldl_cons, h2e, h1e, List.append_assoc, ← List.filter_append,
        h1s]
      have harr : st.steps_done + 1 + 1 = (st.steps_done + 1) + 1 := rfl
      rw [harr, range'_compose 1 (st.steps_done + 1) l.length,
        List.length_cons]
      have hlen : 1 + l.length = l.length + 1 := by omega
      rw [hlen]

theorem corefEpoch_exact (env : CorefEnv) (st : CorefState) :
    (corefEpoch env st).steps_done = st.steps_done + env.nBatches ∧
    (corefEpoch env st).evals = st.evals ++
      ((List.range' (st.steps_done + 1) env.nBatches).filter
        fun a => a % env.EVAL_STEPS = 0) := by
  have h := corefList_exact env (List.range env.nBatches) st
  simpa using h

theorem corefTrain_exact (env : CorefEnv) (hb : 0 < env.nBatches) :
    ∀ st : CorefState, ∃ k : ℕ,
      (corefTrain env hb st).steps_done = st.steps_done + k ∧
      (corefTrain env hb st).evals = st.evals ++
        ((List.range' (st.steps_done + 1) k).filter
          fun a => a % env.EVAL_STEPS = 0) := by
  suffices H : ∀ (n : ℕ) (st : CorefState),
      env.num_steps - st.steps_done ≤ n → ∃ k : ℕ,
        (corefTrain env hb st).steps_done = st.steps_done + k ∧
        (corefTrain env hb st).evals = st.evals ++
          ((List.range' (st.steps_done + 1) k).filter
            fun a => a % env.EVAL_STEPS = 0) by
    intro st
    exact H (env.num_steps - st.steps_done) st le_rfl
  intro n
  induction n with
  | zero =>
      intro st hk
      have hstop : ¬ st.steps_done < env.num_steps := by omega
      rw [corefTrain, dif_neg hstop]
      exact ⟨0, by simp, by simp⟩
  | succ n ih =>
      intro st hk
      by_cases h : st.steps_done < env.num_steps
      · rw [corefTrain, dif_pos h]
        obtain ⟨h1s, h1e⟩ := corefEpoch_exact env st
        obtain ⟨k2, h2s, h2e⟩ := ih (corefEpoch env st) (by omega)
        refine ⟨env.nBatches + k2, ?_, ?_⟩
        · rw [h2s, h1s]; omega
        · rw [h2e, h1e, h1s, List.append_assoc, ← List.filter_append]
          have harr : st.steps_done + env.nBatches + 1 =
              (st.steps_done + 1) + env.nBatches := by omega
          rw [harr, range'_compose env.nBatches (st.steps_done + 1) k2]
      · rw [corefTrain, dif_neg h]
        exact ⟨0, by simp, by simp⟩

/-- C7 counterexample: in the coref script's `main`, the `CorefModel` is
built (line 173) before the data is loaded (line 177), so the claimed
"loads data, then builds the model" order fails for that script; moreover
"reports the final test metric at the end of every run" also fails: a
constclass run that hits the wall-clock time limit exits from inside the
loop without the final test, and a coref run whose validation F1 never
improves writes no best checkpoint, so its `final_eval` reports nothing. -/
theorem script_order_counterexample :
    ¬ ((corefMainPhases false).indexOf .loadData <
        (corefMainPhases false).indexOf .buildModel) ∧
    (runMain envTimeUp none).isFinished = false ∧
    (corefMain cenvZero Nat.one_pos (fun _ => 1) false none).reported
      = none := by
  refine ⟨by decide, by decide, ?_⟩
  have htr : corefTrain cenvZero Nat.one_pos (corefResumeState none) =
      corefEpoch cenvZero (corefResumeState none) := by
    rw [corefTrain, dif_pos (by decide), corefTrain, dif_neg (by decide)]
  show final_eval (fun _ => 1)
      (corefBestFile none
        (corefTrain cenvZero Nat.one_pos (corefResumeState none))) = none
  rw [htr]
  decide

/-- C7 amended: the constclass script runs data loading, model
construction, optimizer construction, the training loop and the final test
in that order, while the coref script builds its model BEFORE loading the
data and then runs optimizer construction, training and the final
evaluation; in both training loops validation happens exactly when the
global step count is a multiple of the evaluation interval — the
validation points of a run are precisely the multiples among the executed
step counts — with exactly one checkpoint written per validation at such a
step; every constclass run (fresh or resumed) that is not cut short by the
time limit and has a best model ends by reporting that model's test
accuracy; and every coref run ends in `final_eval`, which reports the
saved best F1 and the test F1 of the loaded model exactly when the
best-model checkpoint file exists. -/
theorem script_order_and_cadence :
    (constclassPhases.indexOf .loadData <
        constclassPhases.indexOf .buildModel ∧
      constclassPhases.indexOf .buildModel <
        constclassPhases.indexOf .buildOptimizer ∧
      constclassPhases.indexOf .buildOptimizer <
        constclassPhases.indexOf .trainLoop ∧
      constclassPhases.indexOf .trainLoop <
        constclassPhases.indexOf .finalEval) ∧
    (∀ fl : Bool, (corefMainPhases fl).indexOf .buildModel <
        (corefMainPhases fl).indexOf .loadData) ∧
    ((corefMainPhases false).indexOf .loadData <
        (corefMainPhases false).indexOf .buildOptimizer ∧
      (corefMainPhases false).indexOf .buildOptimizer <
        (corefMainPhases false).indexOf .trainLoop ∧
      (corefMainPhases false).indexOf .trainLoop <
        (corefMainPhases false).indexOf .finalEval) ∧
    (∀ (env : Env) (r : Resume) (st : LoopState),
      st.evals = [] → st.ckpts = [] →
      (runLoop env r st).ckpts.length = (runLoop env r st).evals.length ∧
      (∀ a ∈ (runLoop env r st).evals, a % env.eval_step = 0) ∧
      (∀ c ∈ (runLoop env r st).ckpts,
        (env.N * c.epoch + c.step + 1) % env.eval_step = 0)) ∧
    (∀ (env : CorefEnv) (hb : 0 < env.nBatches) (st : CorefState),
      st.evals = [] → st.regCkpts = [] →
      (corefTrain env hb st).regCkpts.length =
        (corefTrain env hb st).evals.length ∧
      (∀ a ∈ (corefTrain env hb st).evals, a % env.EVAL_STEPS = 0) ∧
      (∀ c ∈ (corefTrain env hb st).regCkpts,
        c.steps_done % env.EVAL_STEPS = 0)) ∧
    (∀ (env : Env) (m : ℕ),
      (runLoop env .fresh (freshState env)).exited = false →
      (runLoop env .fresh (freshState env)).best_model = some m →
      runMain env none = .finished (env.testAcc m)
        (runLoop env .fresh (freshState env))) ∧
    (∀ (env : Env) (r : Resume) (st : LoopState),
      st.trained = [] → st.evals = [] →
      (runLoop env r st).evals =
        ((runLoop env r st).trained.map fun p =>
          env.N * p.1 + p.2 + 1).filter fun a => a % env.eval_step = 0) ∧
    (∀ (env : CorefEnv) (hb : 0 < env.nBatches) (st : CorefState),
      st.evals = [] → ∃ k : ℕ,
        (corefTrain env hb st).steps_done = st.steps_done + k ∧
        (corefTrain env hb st).evals =
          (List.range' (st.steps_done + 1) k).filter
            fun a => a % env.EVAL_STEPS = 0) ∧
    (∀ (env : Env) (ck : Ckpt) (m : ℕ),
      ck.lr_controller.not_improved < ck.lr_controller.terminate_range →
      (runLoop env (resumeOf ck) (loadCkpt ck)).exited = false →
      (runLoop env (resumeOf ck) (loadCkpt ck)).best_model = some m →
      runMain env (some ck) = .finished (env.testAcc m)
        (runLoop env (resumeOf ck) (loadCkpt ck))) ∧
    (∀ t : ℕ → ℚ, final_eval t none = none ∧
      ∀ ck : CorefCkpt, final_eval t (some ck) =
        some (ck.max_f1, t ck.model_state_dict)) ∧
    (∀ (env : CorefEnv) (hb : 0 < env.nBatches) (t : ℕ → ℚ)
        (file : Option CorefCkpt),
      (corefMain env hb t true file).reported = final_eval t file ∧
      (corefMain env hb t false file).reported =
        final_eval t (corefBestFile file
          (corefTrain env hb (corefResumeState file)))) := by
  refine ⟨by decide, fun fl => by cases fl <;> decide, by decide, ?_, ?_, ?_,
    ?_, ?_, ?_, fun t => ⟨rfl, fun ck => rfl⟩,
    fun env hb t file => ⟨rfl, rfl⟩⟩
  · intro env r st he hc
    have hrl : runLoop env r st = runList env r (allBatches env) st := rfl
    obtain ⟨ext, hxe, -, hxc, hxm, hxmem⟩ := runList_hist env r (allBatches env) st
    rw [hrl, hxe, hxc, he, hc]
    refine ⟨by simp, ?_, ?_⟩
    · intro a ha
      rw [List.nil_append] at ha
      exact hxm a ha
    · intro c hcm
      rcases hxmem c hcm with h | h
      · rw [hc] at h
        cases h
      · exact h
  · intro env hb st he hc
    obtain ⟨ext, hxe, -, hxc, hxm, hxmem⟩ := corefTrain_hist env hb st
    rw [hxe, hxc, he, hc]
    refine ⟨by simp, ?_, ?_⟩
    · intro a ha
      rw [List.nil_append] at ha
      exact hxm a ha
    · intro c hcm
      rcases hxmem c hcm with h | h
      · rw [hc] at h
        cases h
      · exact h
  · intro env m hE hB
    simp [runMain, mainFresh, finishRun, hE, hB]
  · intro env r st htr hev
    have hrl : runLoop env r st = runList env r (allBatches env) st := rfl
    obtain ⟨newT, ht, he⟩ := runList_exact env r (allBatches env) st
    rw [hrl, he, ht, htr, hev, List.nil_append, List.nil_append]
  · intro env hb st hev
    obtain ⟨k, hs, he⟩ := corefTrain_exact env hb st
    exact ⟨k, hs, by rw [he, hev, List.nil_append]⟩
  · intro env ck m hlt hE hB
    simp only [runMain]
    rw [if_neg (not_le.mpr hlt)]
    simp [finishRun, hE, hB]

theorem script_order_and_cadence_witness :
    ((freshState envEvery).evals = [] ∧ (freshState envEvery).ckpts = [] ∧
      ((runLoop envEvery .fresh (freshState envEvery)).ckpts.length =
          (runLoop envEvery .fresh (freshState envEvery)).evals.length ∧
        (∀ a ∈ (runLoop envEvery .fresh (freshState envEvery)).evals,
          a % envEvery.eval_step = 0) ∧
        (∀ c ∈ (runLoop envEvery .fresh (freshState envEvery)).ckpts,
          (envEvery.N * c.epoch + c.step + 1) % envEvery.eval_step = 0))) ∧
    (cstInit.evals = [] ∧ cstInit.regCkpts = [] ∧
      ((corefTrain cenvSmall Nat.one_pos cstInit).regCkpts.length =
          (corefTrain cenvSmall Nat.one_pos cstInit).evals.length ∧
        (∀ a ∈ (corefTrain cenvSmall Nat.one_pos cstInit).evals,
          a % cenvSmall.EVAL_STEPS = 0) ∧
        (∀ c ∈ (corefTrain cenvSmall Nat.one_pos cstInit).regCkpts,
          c.steps_done % cenvSmall.EVAL_STEPS = 0))) ∧
    ((runLoop envEvery .fresh (freshState envEvery)).exited = false ∧
      (runLoop envEvery .fresh (freshState envEvery)).best_model = some 1 ∧
      runMain envEvery none = .finished (envEvery.testAcc 1)
        (runLoop envEvery .fresh (freshState envEvery))) ∧
    ((freshState envEvery).trained = [] ∧
      (runLoop envEvery .fresh (freshState envEvery)).evals =
        ((runLoop envEvery .fresh (freshState envEvery)).trained.map fun p =>
          envEvery.N * p.1 + p.2 + 1).filter
            fun a => a % envEvery.eval_step = 0) ∧
    (∃ k : ℕ,
      (corefTrain cenvSmall Nat.one_pos cstInit).steps_done =
        cstInit.steps_done + k ∧
      (corefTrain cenvSmall Nat.one_pos cstInit).evals =
        (List.range' (cstInit.steps_done + 1) k).filter
          fun a => a % cenvSmall.EVAL_STEPS = 0) ∧
    (ckptLive.lr_controller.not_improved <
        ckptLive.lr_controller.terminate_range ∧
      (runLoop envNoEval (resumeOf ckptLive) (loadCkpt ckptLive)).exited
        = false ∧
      runMain envNoEval (some ckptLive) = .finished (envNoEval.testAcc 1)
        (runLoop envNoEval (resumeOf ckptLive) (loadCkpt ckptLive))) :=
  ⟨⟨rfl, rfl, script_order_and_cadence.2.2.2.1 envEvery .fresh
      (freshState envEvery) rfl rfl⟩,
   ⟨rfl, rfl, script_order_and_cadence.2.2.2.2.1 cenvSmall Nat.one_pos
      cstInit rfl rfl⟩,
   ⟨by decide, by decide, script_order_and_cadence.2.2.2.2.2.1 envEvery 1
      (by decide) (by decide)⟩,
   ⟨rfl, script_order_and_cadence.2.2.2.2.2.2.1 envEvery .fresh
      (freshState envEvery) rfl rfl⟩,
   script_order_and_cadence.2.2.2.2.2.2.2.1 cenvSmall Nat.one_pos
      cstInit rfl,
   ⟨by decide, by decide,
    script_order_and_cadence.2.2.2.2.2.2.2.2.1 envNoEval ckptLive 1
      (by decide) (by decide) (by decide)⟩⟩

/-- C8: the best-metric update of both scripts replaces the tracked best
exactly on strict improvement, i.e. it is the binary maximum, so after any
sequence of evaluations the tracked best equals the maximum of the initial
(possibly checkpoint-restored) value and all validation metrics seen, and
it never decreases as evaluations accrue; the constclass validation block
updates `best_acc` by exactly this rule, and over both scripts' whole
training loops the tracked best is the fold of this rule over the run's
validation metrics. -/
theorem best_metric_tracker :
    (∀ b v : ℚ, updateBest b v = max b v) ∧
    (∀ (b : ℚ) (vals : List ℚ), bestAfter b vals = listMax (b :: vals)) ∧
    (∀ (b : ℚ) (vals : List ℚ) (v : ℚ),
      bestAfter b vals ≤ bestAfter b (vals ++ [v])) ∧
    (∀ (env : Env) (e s a : ℕ) (st : LoopState),
      (evalBody env e s a st).best_acc = updateBest st.best_acc (env.acc a)) ∧
    (∀ (env : Env) (r : Resume) (st : LoopState), ∃ ext : List ℕ,
      (runLoop env r st).evals = st.evals ++ ext ∧
      (runLoop env r st).best_acc = bestAfter st.best_acc (ext.map env.acc)) ∧
    (∀ (env : CorefEnv) (hb : 0 < env.nBatches) (st : CorefState),
      ∃ ext : List ℕ,
        (corefTrain env hb st).evals = st.evals ++ ext ∧
        (corefTrain env hb st).max_f1 = bestAfter st.max_f1 (ext.map env.f1)) := by
  refine ⟨updateBest_eq_max, bestAfter_eq_listMax, bestAfter_le_snoc,
    evalBody_best, ?_, ?_⟩
  · intro env r st
    obtain ⟨ext, hxe, hxb, -, -, -⟩ := runList_hist env r (allBatches env) st
    exact ⟨ext, hxe, hxb⟩
  · intro env hb st
    obtain ⟨ext, hxe, hxb, -, -, -⟩ := corefTrain_hist env hb st
    exact ⟨ext, hxe, hxb⟩

theorem best_metric_tracker_witness :
    0 < cenvSmall.nBatches ∧
    ∃ ext : List ℕ,
      (corefTrain cenvSmall Nat.one_pos cstInit).evals =
        cstInit.evals ++ ext ∧
      (corefTrain cenvSmall Nat.one_pos cstInit).max_f1 =
        bestAfter cstInit.max_f1 (ext.map cenvSmall.f1) :=
  ⟨Nat.one_pos,
    best_metric_tracker.2.2.2.2.2 cenvSmall Nat.one_pos cstInit⟩

end SpanRep
